import Mathlib

/-!
Shallow embedding of `src/lib/index.js` (the "policies4apis" / MrHorse-style
hapi policy engine): the policy registry (`oData`), the memoized apply-point
resolver (`determineAggregateApplyPoint`), the per-stage dispatch handlers
(`aHandlers[oApplyPoint]`), the serial executor (`runPolicies`), registration
(`addPolicy` inside `loadPolicies`), `reset`, and the parallel aggregator
(`exports.parallel` with its `defaultErrorHandler`).

JavaScript objects are embedded as insertion-ordered association lists
(`List (String × _)`); JS arrays as `List`; the truthiness-relevant values a
policy's `applyPoint` property can take as `ApField`; callback-style control
flow as explicit result values / lists of continuation calls.
-/

set_option maxHeartbeats 1000000

deriving instance DecidableEq for Except

/-- The fixed `aApplicablePoints` array of the six lifecycle stages. -/
def aApplicablePoints : List String :=
  ["onRequest", "onPreAuth", "onPostAuth", "onPreHandler", "onPostHandler", "onPreResponse"]

/-- A JS value sitting in a policy's `applyPoint` property: absent
(`undefined`), `null`, a boolean, or a string.  Only these shapes are needed
to express presence, truthiness and membership in `aApplicablePoints`. -/
inductive ApField
  | undef
  | nullv
  | boolv (b : Bool)
  | strv (s : String)
deriving DecidableEq

/-- JS truthiness of an `ApField` value (`!!v`). -/
def truthy : ApField → Bool
  | .undef => false
  | .nullv => false
  | .boolv b => b
  | .strv s => !s.isEmpty

/-- JS string coercion of an `ApField` value (as in `'msg: ' + v`). -/
def jsToString : ApField → String
  | .undef => "undefined"
  | .nullv => "null"
  | .boolv b => if b then "true" else "false"
  | .strv s => s

/-- `_.includes(listOfStrings, v)` for an `ApField` value: SameValueZero, so
only a string member can match. -/
def includesStr (l : List String) : ApField → Bool
  | .strv s => decide (s ∈ l)
  | _ => false

/-- An error object flowing through the dispatch: the `Boom` errors the
engine itself creates, or any other error a policy hands to its callback
(`custom`). -/
inductive BoomErr
  | notImplemented (msg : String)
  | badImplementation (msg : String)
  | forbidden (msg : Option String)
  | custom (s : String)
deriving DecidableEq

/-- The three arguments a policy passes to its callback:
`(err, canContinue, message)`.  `err` is an optional error object,
`canContinue` the JS truthiness of the second argument, `message` the
optional denial message. -/
structure CbResult where
  err : Option BoomErr
  canContinue : Bool
  message : Option String
deriving DecidableEq

/-- A registered or inline policy function: its `applyPoint` property, its
`runs` property (set on aggregates built by `exports.parallel`), and the
callback result its invocation produces (the shallow embedding of the
`(request, reply, next)` call). -/
structure PolicyFn where
  applyPoint : ApField := .undef
  runs : Option (List String) := none
  call : CbResult := ⟨none, true, none⟩
deriving DecidableEq

/-- The mutable module state `oData`: `names`, `rawPolicies`, `setHandlers`
and one bucket object per apply point (keyed by the stage string). -/
structure OData where
  names : List String
  rawPolicies : List (String × PolicyFn)
  setHandlers : List String
  buckets : List (String × List (String × PolicyFn))
deriving DecidableEq

/-- The initial `oData` value: empty `names`/`rawPolicies`/`setHandlers` and
an empty bucket for each of the six apply points. -/
def initialOData : OData :=
  { names := []
    rawPolicies := []
    setHandlers := []
    buckets := aApplicablePoints.map (fun ap => (ap, [])) }

/-- Read a bucket object out of the bucket table (`oData[applyPoint]`). -/
def bucketsGet (bs : List (String × List (String × PolicyFn))) (ap : String) :
    List (String × PolicyFn) :=
  (bs.lookup ap).getD []

/-- `oData[applyPoint]` for a state. -/
def bucketOf (st : OData) (ap : String) : List (String × PolicyFn) :=
  bucketsGet st.buckets ap

/-- `Object.keys(oData[applyPoint])`. -/
def bucketKeys (st : OData) (ap : String) : List String :=
  (bucketOf st ap).map Prod.fst

/-- JS object property assignment `obj[k] = v`: replace the value of an
existing key in place, otherwise append the new key at the end. -/
def setAssoc : List (String × PolicyFn) → String → PolicyFn → List (String × PolicyFn)
  | [], k, v => [(k, v)]
  | (k', v') :: rest, k, v =>
    if k' = k then (k, v) :: rest else (k', v') :: setAssoc rest k v

/-- `oData[applyPoint][name] = policy`: update the bucket stored under the
apply-point key (the six valid keys are all present in `initialOData`). -/
def setBucket : List (String × List (String × PolicyFn)) → String → String → PolicyFn →
    List (String × List (String × PolicyFn))
  | [], ap, n, p => [(ap, [(n, p)])]
  | (k, b) :: rest, ap, n, p =>
    if k = ap then (ap, setAssoc b n p) :: rest else (k, b) :: setBucket rest ap n p

/-- `_.uniq`, keeping the first occurrence of each value (worker with an
accumulator of already-seen values). -/
def luniqAux {α : Type} [DecidableEq α] (seen : List α) : List α → List α
  | [] => []
  | x :: xs => if x ∈ seen then luniqAux seen xs else x :: luniqAux (x :: seen) xs

/-- `_.uniq(l)`. -/
def luniq {α : Type} [DecidableEq α] (l : List α) : List α :=
  luniqAux [] l

/-- `_.intersection(a, b)`: the unique values of `a` that are also in `b`. -/
def lintersection (a b : List String) : List String :=
  luniq (a.filter (fun x => decide (x ∈ b)))

/-- `determineAggregateApplyPoint` (the memoized function's underlying
computation): scan `aApplicablePoints` in order for the first stage whose
bucket contains the first listed name, then assert every listed name lives in
that bucket.  `Except.error` carries the message of the `Hoek.assert` that
would throw. -/
def determineAggregateApplyPoint (st : OData) (aPolicyNames : List String) :
    Except String String :=
  match aPolicyNames with
  | [] => .error "Requires non-empty array of policy names."
  | sFirstPolicy :: _ =>
    if (lintersection st.names aPolicyNames).length ≠ aPolicyNames.length then
      .error "Requires loaded policy names."
    else
      match aApplicablePoints.find? (fun ap => decide (sFirstPolicy ∈ bucketKeys st ap)) with
      | none => .error "Policies must be in a valid applyPoint."
      | some applyPoint =>
        if (lintersection (bucketKeys st applyPoint) aPolicyNames).length =
            aPolicyNames.length then
          .ok applyPoint
        else
          .error "Aggregate policies must be from same applyPoint."

/-- The `_.memoize` wrapper's key: the comment in the source documents that
`['p1', ..., 'pN']` is memoized under the key `'p1,...,pN'`. -/
def memoKey (names : List String) : String :=
  String.intercalate "," names

/-- One call through the memoized resolver: a cache hit returns the stored
stage; a miss computes and caches the result.  `_.memoize` stores a result
only when the wrapped function returns (a thrown assert caches nothing). -/
def resolveMemoized (st : OData) (cache : List (String × String)) (names : List String) :
    Except String String × List (String × String) :=
  match cache.lookup (memoKey names) with
  | some v => (.ok v, cache)
  | none =>
    match determineAggregateApplyPoint st names with
    | .ok v => (.ok v, (memoKey names, v) :: cache)
    | .error e => (.error e, cache)

/-- `hasValidApplyPoint(policy)`. -/
def hasValidApplyPoint (p : PolicyFn) : Bool :=
  !truthy p.applyPoint || includesStr aApplicablePoints p.applyPoint

/-- The filename match `filename.match(/(.+)\.js$/)`: `some` of the stem for
a filename that ends in `.js` with a nonempty stem (the greedy `.+` makes the
stem everything before the final `.js`).  Stated on the character list so the
match is fully computable. -/
def jsMatch (filename : String) : Option String :=
  let cs := filename.data
  if 4 ≤ cs.length ∧ cs.drop (cs.length - 3) = ['.', 'j', 's'] then
    some (String.mk (cs.take (cs.length - 3)))
  else none

/-- What one `addPolicy` step of `loadPolicies` produces: the new `oData`,
the apply point whose handler was installed by this call via `server.ext`
(if any), and the error handed to `addPolicyNext` (if any).  The policy a
matching file would `require` is passed in as `policy`. -/
structure AddOutcome where
  st : OData
  installed : Option String
  err : Option String
deriving DecidableEq

/-- `addPolicy(filename, next)` from `loadPolicies`: skip non-`.js` files,
reject duplicate names, reject an invalid `applyPoint`, and otherwise — when
`applyPoint` is `undefined` or truthy — store the policy in its bucket, the
raw-policy table and the name list, installing the stage's handler on first
use of that stage. -/
def addPolicy (filename : String) (policy : PolicyFn) (defaultApplyPoint : String)
    (st : OData) : AddOutcome :=
  match jsMatch filename with
  | none => ⟨st, none, none⟩
  | some name =>
    if name ∈ st.names then
      ⟨st, none, some ("Trying to add a duplicate policy: " ++ name)⟩
    else if !hasValidApplyPoint policy then
      ⟨st, none, some ("Trying to set incorrect applyPoint for the policy: " ++
        jsToString policy.applyPoint)⟩
    else if policy.applyPoint = ApField.undef ∨ truthy policy.applyPoint then
      let applyPoint :=
        if truthy policy.applyPoint then jsToString policy.applyPoint else defaultApplyPoint
      let st' : OData :=
        { st with
          buckets := setBucket st.buckets applyPoint name policy
          rawPolicies := setAssoc st.rawPolicies name policy
          names := st.names ++ [name] }
      if applyPoint ∈ st.setHandlers then ⟨st', none, none⟩
      else ⟨{ st' with setHandlers := st'.setHandlers ++ [applyPoint] }, some applyPoint, none⟩
    else
      ⟨st, none, none⟩

/-- The outcome of running `addPolicy` over a list of `(filename, policy)`
pairs with `Items.serial` (which stops at the first error): final state, the
apply points whose handlers were installed, in order, and the first error. -/
structure RunOut where
  st : OData
  installs : List String
  err : Option String
deriving DecidableEq

/-- `Items.serial(policyFiles, addPolicy, ...)`. -/
def runAdds (d : String) : OData → List (String × PolicyFn) → RunOut
  | st, [] => ⟨st, [], none⟩
  | st, (fn, p) :: rest =>
    let o := addPolicy fn p d st
    match o.err with
    | some e => ⟨o.st, o.installed.toList, some e⟩
    | none =>
      let r := runAdds d o.st rest
      ⟨r.st, o.installed.toList ++ r.installs, r.err⟩

/-- The module state reachable through `reset`: `oData` together with the
memoized resolver's cache. -/
structure MState where
  oData : OData
  cache : List (String × String)
deriving DecidableEq

/-- `reset()`: replace `oData` by a fresh value (empty `names`,
`rawPolicies`, `setHandlers` and a fresh empty bucket per apply point) and
clear the memoize cache. -/
def reset (_s : MState) : MState :=
  ⟨initialOData, []⟩

/-- An argument to `exports.parallel(...)`: a policy name or a function
value (functions are identified by an id; only the final argument's
callability matters to `parallel`). -/
inductive ParArg
  | str (s : String)
  | func (id : Nat)
deriving DecidableEq

/-- The policy-name list `exports.parallel` extracts from its arguments:
when the final argument is callable it is the custom error handler and is
excluded (`args.slice(0, -1)`). -/
def parallelNames (args : List ParArg) : List ParArg :=
  match args.getLast? with
  | some (.func _) => args.dropLast
  | _ => args

/-- Whether `exports.parallel` uses a custom error handler (the final
argument is callable). -/
def parallelUsesCustom (args : List ParArg) : Bool :=
  match args.getLast? with
  | some (.func _) => true
  | _ => false

/-- `exports.parallel(policy1, ..., [cb])` up to the point where it returns
the aggregate: the arity assert, the split into `(errorHandler, policyNames)`
and the uniqueness assert.  `.ok` carries the extracted name list and whether
a custom handler was picked (the returned `aggregatePolicy` carries
`runs = policyNames`). -/
def parallel (args : List ParArg) : Except String (List ParArg × Bool) :=
  if args.length = 0 then .error "Requires at least one argument."
  else
    let policyNames := parallelNames args
    if (luniq policyNames).length = policyNames.length then
      .ok (policyNames, parallelUsesCustom args)
    else .error "Listed policies must be unique."

/-- The trace of calls `defaultErrorHandler` makes to `next` during the
`_.forEach` scan: the iteratee calls `next` with the first stored result
whose `err` is truthy or whose `canContinue` is falsy and then returns
`false` to stop the iteration. -/
def forEachNext : List String → (String → CbResult) → List CbResult
  | [], _ => []
  | n :: rest, results =>
    let result := results n
    if result.err.isSome || !result.canContinue then [result]
    else forEachNext rest results

/-- `defaultErrorHandler(ranPolicies, results, next)` from
`exports.parallel`, as the full ordered list of calls it makes to `next`:
the `_.forEach` scan over the listed names followed by the trailing
`next(null, true)`. -/
def defaultErrorHandler (ranPolicies : List String) (results : String → CbResult) :
    List CbResult :=
  forEachNext ranPolicies results ++ [⟨none, true, none⟩]

/-- The stored result of one wrapped sub-policy inside the aggregate:
`wrapPolicy` never errors and records `(err, canContinue, message)`.  A name
missing from `rawPolicies` is dropped by `_.pick`, so reading its result in
the error handler would fault in JS; classification only builds aggregates
whose names the resolver has checked against the registry, so that read is
unreachable and is mapped to a non-continue result here. -/
def resultsOf (st : OData) (n : String) : CbResult :=
  match st.rawPolicies.lookup n with
  | some p => p.call
  | none => ⟨none, false, none⟩

/-- The first call the aggregate's error handler makes to the serial
executor's continuation — the value the executor acts on. -/
def firstNext (calls : List CbResult) : CbResult :=
  calls.headD ⟨none, true, none⟩

/-- The net callback result of invoking an aggregate built from `names`
with the default error handler over the registry's raw-policy table. -/
def aggregateCall (st : OData) (names : List String) : CbResult :=
  firstNext (defaultErrorHandler names (resultsOf st))

/-- One entry of a route's `route.settings.plugins.policies` array: a policy
name, a policy function, a nested array of names (the parallel-group form the
resolver accepts), `null`, or any other value. -/
inductive RouteEntry
  | str (s : String)
  | fn (p : PolicyFn)
  | arr (names : List String)
  | nullE
  | other
deriving DecidableEq

/-- How classification of one route entry stops early: an uncaught
`Hoek.assert` throw, or `fReply(boomError)` with `bRepliedWithError` set. -/
inductive ClassStop
  | thrown (msg : String)
  | replied (e : BoomErr)
deriving DecidableEq

/-- Classification of one route entry inside the stage handler's `reduce`:
arrays are resolved and transformed into an aggregate function (or `null`
when another stage owns them) and then fall through to the string / function
/ null / other cases. -/
def classifyEntry (stage : String) (st : OData) (d : String) (acc : List PolicyFn)
    (entry : RouteEntry) : Except ClassStop (List PolicyFn) :=
  let step1 : Except ClassStop (Option String × RouteEntry) :=
    match entry with
    | .arr names =>
      match determineAggregateApplyPoint st names with
      | .error m => .error (.thrown m)
      | .ok ag =>
        if ag = stage then
          match parallel (names.map ParArg.str) with
          | .error m => .error (.thrown m)
          | .ok _ =>
            .ok (some ag,
              .fn { applyPoint := .undef, runs := some names, call := aggregateCall st names })
        else .ok (some ag, .nullE)
    | e => .ok (none, e)
  match step1 with
  | .error s => .error s
  | .ok (aggAP0, entry') =>
    match entry' with
    | .str s =>
      if s ∈ st.names then
        .error (.replied (.notImplemented ("Missing policy: " ++ s)))
      else
        match (bucketOf st stage).lookup s with
        | some p => .ok (acc ++ [p])
        | none => .ok acc
    | .fn p =>
      let inferred : Except ClassStop (Option String) :=
        if aggAP0.isNone ∧ p.runs.isSome ∧ truthy p.applyPoint = false then
          match determineAggregateApplyPoint st (p.runs.getD []) with
          | .error m => .error (.thrown m)
          | .ok ag => .ok (some ag)
        else .ok aggAP0
      match inferred with
      | .error s => .error s
      | .ok aggAP =>
        if !hasValidApplyPoint p then
          .error (.replied (.badImplementation
            ("Trying to use incorrect applyPoint for the dynamic policy: " ++
              jsToString p.applyPoint)))
        else
          let effective :=
            if truthy p.applyPoint then jsToString p.applyPoint
            else
              match aggAP with
              | some ag => if ag = "" then d else ag
              | none => d
          if effective = stage then .ok (acc ++ [p]) else .ok acc
    | .arr _ => .ok acc
    | .nullE => .ok acc
    | .other =>
      .error (.replied (.badImplementation "Policy not specified by name or by function."))

/-- The handler's `reduce` over the route's policy list: once a reply has
been produced every later iteration returns immediately, which the `Except`
short-circuit models. -/
def classifyFold (stage : String) (st : OData) (d : String) (acc : List PolicyFn) :
    List RouteEntry → Except ClassStop (List PolicyFn)
  | [] => .ok acc
  | e :: rest =>
    match classifyEntry stage st d acc e with
    | .error s => .error s
    | .ok acc' => classifyFold stage st d acc' rest

/-- `checkPolicy`'s call to `next`: `some boom` aborts `Items.serial`,
`none` continues. -/
def checkPolicyNext (p : PolicyFn) : Option BoomErr :=
  match p.call.err with
  | some e => some e
  | none =>
    if p.call.canContinue then none
    else some (.forbidden p.call.message)

/-- `Items.serial(policiesToRun, checkPolicy, cb)`: the policies that
actually get invoked (in order) and the error the final callback receives. -/
def serialRun : List PolicyFn → List PolicyFn × Option BoomErr
  | [] => ([], none)
  | p :: rest =>
    match checkPolicyNext p with
    | some e => ([p], some e)
    | none =>
      let r := serialRun rest
      (p :: r.fst, r.snd)

/-- A call made on the reply interface at the end of a dispatch. -/
inductive ReplyCall
  | contin
  | err (e : BoomErr)
deriving DecidableEq

/-- `runPolicies(policiesToRun, request, reply)`: invoke the policies in
order and, unless `reply._replied` is already set, reply once — with the
aborting error, or with `reply.continue()`. -/
def runPolicies (ps : List PolicyFn) (replied : Bool) : List PolicyFn × List ReplyCall :=
  let r := serialRun ps
  (r.fst,
    if replied then []
    else
      match r.snd with
      | some e => [.err e]
      | none => [.contin])

/-- Everything observable about one dispatch of a stage handler: the policies
the serial executor invoked, the replies produced, and an uncaught assert
throw if classification hit one. -/
structure DispatchResult where
  invoked : List PolicyFn
  replies : List ReplyCall
  thrown : Option String
deriving DecidableEq

/-- `aHandlers[oApplyPoint](oReq, fReply)`: continue immediately when the
route configures no policies, otherwise classify each entry in order
(possibly replying with a configuration error) and hand the accumulated list
to `runPolicies`. -/
def dispatch (stage : String) (st : OData) (d : String)
    (routePolicies : Option (List RouteEntry)) (replied : Bool) : DispatchResult :=
  match routePolicies with
  | none => ⟨[], [.contin], none⟩
  | some entries =>
    match classifyFold stage st d [] entries with
    | .error (.thrown m) => ⟨[], [], some m⟩
    | .error (.replied e) => ⟨[], [.err e], none⟩
    | .ok ps =>
      let r := runPolicies ps replied
      ⟨r.fst, r.snd, none⟩

/-! ### Helper lemmas about the lodash embeddings -/

theorem mem_luniqAux {α : Type} [DecidableEq α] {x : α} :
    ∀ (l seen : List α), x ∈ luniqAux seen l ↔ x ∈ l ∧ x ∉ seen
  | [], seen => by simp [luniqAux]
  | y :: ys, seen => by
    by_cases hy : y ∈ seen
    · rw [luniqAux, if_pos hy, mem_luniqAux ys seen]
      by_cases hxy : x = y <;> simp_all
    · rw [luniqAux, if_neg hy]
      simp only [List.mem_cons, mem_luniqAux ys (y :: seen)]
      by_cases hxy : x = y <;> simp_all

theorem nodup_luniqAux {α : Type} [DecidableEq α] :
    ∀ (l seen : List α), (luniqAux seen l).Nodup
  | [], _ => by simp [luniqAux]
  | y :: ys, seen => by
    by_cases hy : y ∈ seen
    · rw [luniqAux, if_pos hy]; exact nodup_luniqAux ys seen
    · rw [luniqAux, if_neg hy]
      refine List.nodup_cons.mpr ⟨?_, nodup_luniqAux ys (y :: seen)⟩
      intro hmem
      exact ((mem_luniqAux ys (y :: seen)).mp hmem).2 (List.mem_cons_self y seen)

theorem mem_luniq {α : Type} [DecidableEq α] {x : α} {l : List α} :
    x ∈ luniq l ↔ x ∈ l := by
  rw [luniq, mem_luniqAux]; simp

theorem nodup_luniq {α : Type} [DecidableEq α] (l : List α) : (luniq l).Nodup :=
  nodup_luniqAux l []

theorem luniqAux_length_le {α : Type} [DecidableEq α] :
    ∀ (l seen : List α), (luniqAux seen l).length ≤ l.length
  | [], _ => Nat.le_refl _
  | y :: ys, seen => by
    by_cases hy : y ∈ seen
    · rw [luniqAux, if_pos hy]
      exact Nat.le_trans (luniqAux_length_le ys seen) (Nat.le_succ _)
    · rw [luniqAux, if_neg hy]
      simpa using Nat.succ_le_succ (luniqAux_length_le ys (y :: seen))

theorem luniqAux_length_eq_iff {α : Type} [DecidableEq α] :
    ∀ (l seen : List α), (luniqAux seen l).length = l.length ↔
      l.Nodup ∧ ∀ x ∈ l, x ∉ seen
  | [], seen => by simp [luniqAux]
  | y :: ys, seen => by
    by_cases hy : y ∈ seen
    · rw [luniqAux, if_pos hy]
      constructor
      · intro h
        have hle := luniqAux_length_le ys seen
        simp only [List.length_cons] at h
        omega
      · rintro ⟨-, h⟩
        exact absurd hy (h y (List.mem_cons_self y ys))
    · rw [luniqAux, if_neg hy]
      have hIH := luniqAux_length_eq_iff ys (y :: seen)
      simp only [List.length_cons] at hIH ⊢
      rw [Nat.add_right_cancel_iff, hIH]
      constructor
      · rintro ⟨hnd, hall⟩
        refine ⟨List.nodup_cons.mpr
          ⟨fun hyin => (hall y hyin) (List.mem_cons_self y seen), hnd⟩, ?_⟩
        intro x hx
        rcases List.mem_cons.mp hx with rfl | hx
        · exact hy
        · exact fun hs => hall x hx (List.mem_cons_of_mem _ hs)
      · rintro ⟨hnd, hall⟩
        have hnd' := List.nodup_cons.mp hnd
        refine ⟨hnd'.2, ?_⟩
        intro x hx
        intro hmem
        rcases List.mem_cons.mp hmem with rfl | hs
        · exact hnd'.1 hx
        · exact hall x (List.mem_cons_of_mem _ hx) hs

theorem luniq_length_iff {α : Type} [DecidableEq α] (l : List α) :
    (luniq l).length = l.length ↔ l.Nodup := by
  rw [luniq, luniqAux_length_eq_iff]
  simp

theorem mem_lintersection {a b : List String} {x : String} :
    x ∈ lintersection a b ↔ x ∈ a ∧ x ∈ b := by
  rw [lintersection, mem_luniq, List.mem_filter]
  simp

theorem nodup_lintersection (a b : List String) : (lintersection a b).Nodup :=
  nodup_luniq _

/-- The characterization of the length test both `Hoek.assert`s in the
resolver rely on: `_.intersection(a, b).length === b.length` holds exactly
when `b` has no duplicates and every element of `b` occurs in `a`. -/
theorem lintersection_length_eq {a b : List String} :
    (lintersection a b).length = b.length ↔ b.Nodup ∧ ∀ x ∈ b, x ∈ a := by
  constructor
  · intro h
    have hsub : lintersection a b ⊆ b := fun x hx => (mem_lintersection.mp hx).2
    have hsp : List.Subperm (lintersection a b) b := (nodup_lintersection a b).subperm hsub
    have hperm : List.Perm (lintersection a b) b := hsp.perm_of_length_le (Nat.le_of_eq h.symm)
    refine ⟨hperm.nodup (nodup_lintersection a b), ?_⟩
    intro x hx
    exact (mem_lintersection.mp (hperm.symm.subset hx)).1
  · rintro ⟨hnd, hsub⟩
    have h1 : List.Subperm (lintersection a b) b :=
      (nodup_lintersection a b).subperm (fun x hx => (mem_lintersection.mp hx).2)
    have h2 : List.Subperm b (lintersection a b) :=
      hnd.subperm (fun x hx => mem_lintersection.mpr ⟨hsub x hx, hx⟩)
    exact Nat.le_antisymm h1.length_le h2.length_le

/-- `find?` returns the unique satisfying element when there is one. -/
theorem find?_eq_some_of_unique {α : Type} {p : α → Bool} :
    ∀ {l : List α} {s : α}, s ∈ l → p s = true → (∀ x ∈ l, p x = true → x = s) →
      l.find? p = some s
  | [], _, hs, _, _ => absurd hs (List.not_mem_nil _)
  | y :: ys, s, hs, hps, huniq => by
    rcases List.mem_cons.mp hs with rfl | hs'
    · simp [List.find?, hps]
    · cases hpy : p y with
      | true =>
        have hys : y = s := huniq y (List.mem_cons_self y ys) hpy
        simp [List.find?, hys, hps]
      | false =>
        rw [List.find?, hpy]
        exact find?_eq_some_of_unique hs' hps
          (fun x hx hpx => huniq x (List.mem_cons_of_mem _ hx) hpx)

/-- The registry invariant the dispatcher relies on: a policy name lives in
at most one stage bucket (`addPolicy` inserts each fresh name into exactly
one bucket). -/
def disjointBuckets (st : OData) : Prop :=
  ∀ ap1 ∈ aApplicablePoints, ∀ ap2 ∈ aApplicablePoints, ap1 ≠ ap2 →
    ∀ n ∈ bucketKeys st ap1, n ∉ bucketKeys st ap2

/-- C4: for a registry whose stage buckets are disjoint, the apply-point
resolver is order-insensitive: when it succeeds on a name list, it succeeds
with the same stage on every permutation of that list. -/
theorem determineAggregateApplyPoint_perm_invariant (st : OData) (L Lp : List String)
    (s : String) (hdisj : disjointBuckets st) (hperm : List.Perm L Lp)
    (hok : determineAggregateApplyPoint st L = .ok s) :
    determineAggregateApplyPoint st Lp = .ok s := by
  cases L with
  | nil => simp [determineAggregateApplyPoint] at hok
  | cons f rest =>
    rw [determineAggregateApplyPoint] at hok
    by_cases hload : (lintersection st.names (f :: rest)).length ≠ (f :: rest).length
    · rw [if_pos hload] at hok; exact absurd hok (by simp)
    · rw [if_neg hload] at hok
      rw [Decidable.not_not] at hload
      obtain ⟨hnodupL, hsubL⟩ := lintersection_length_eq.mp hload
      cases hfind : aApplicablePoints.find? (fun ap => decide (f ∈ bucketKeys st ap)) with
      | none => rw [hfind] at hok; exact absurd hok (by simp)
      | some ap0 =>
        rw [hfind] at hok
        have hok2 : (if (lintersection (bucketKeys st ap0) (f :: rest)).length =
            (f :: rest).length then Except.ok ap0
            else Except.error "Aggregate policies must be from same applyPoint.") =
            Except.ok (ε := String) s := hok
        by_cases hsame : (lintersection (bucketKeys st ap0) (f :: rest)).length =
            (f :: rest).length
        · rw [if_pos hsame] at hok2
          have hap0 : ap0 = s := by injection hok2
          subst hap0
          obtain ⟨-, hallL⟩ := lintersection_length_eq.mp hsame
          have hmem_s : ap0 ∈ aApplicablePoints := List.mem_of_find?_eq_some hfind
          cases Lp with
          | nil =>
            have hlen := hperm.length_eq
            simp at hlen
          | cons g rest' =>
            rw [determineAggregateApplyPoint]
            have hndLp : (g :: rest').Nodup := hperm.nodup hnodupL
            have hsubLp : ∀ x ∈ g :: rest', x ∈ st.names :=
              fun x hx => hsubL x (hperm.mem_iff.mpr hx)
            have hallLp : ∀ x ∈ g :: rest', x ∈ bucketKeys st ap0 :=
              fun x hx => hallL x (hperm.mem_iff.mpr hx)
            rw [if_neg (Decidable.not_not.mpr (lintersection_length_eq.mpr ⟨hndLp, hsubLp⟩))]
            have hg : g ∈ bucketKeys st ap0 := hallLp g (List.mem_cons_self g rest')
            have huniq : ∀ ap ∈ aApplicablePoints,
                (fun ap => decide (g ∈ bucketKeys st ap)) ap = true → ap = ap0 := by
              intro ap hap hdec
              by_contra hne
              exact hdisj ap hap ap0 hmem_s hne g (of_decide_eq_true hdec) hg
            rw [find?_eq_some_of_unique hmem_s (decide_eq_true hg) huniq]
            show (if (lintersection (bucketKeys st ap0) (g :: rest')).length =
                (g :: rest').length then Except.ok ap0
                else Except.error "Aggregate policies must be from same applyPoint.") =
              Except.ok ap0
            rw [if_pos (lintersection_length_eq.mpr ⟨hndLp, hallLp⟩)]
        · rw [if_neg hsame] at hok2; exact absurd hok2 (by simp)

/-! ### Concrete fixtures -/

/-- A plain policy that continues (no `applyPoint`, no `runs`). -/
def okPolicy : PolicyFn := {}

/-- A policy that rejects with the message `"no entry"`. -/
def rejectPolicy : PolicyFn := { call := ⟨none, false, some "no entry"⟩ }

/-- A policy declaring `applyPoint: 'onRequest'`. -/
def onRequestPolicy : PolicyFn := { applyPoint := .strv "onRequest" }

/-- A policy whose `applyPoint` property is present but `null`. -/
def nullApplyPointPolicy : PolicyFn := { applyPoint := .nullv }

/-- Registry after loading `x.js` and `y.js` (both at the default stage
`onPreHandler`). -/
def stXY : OData :=
  (runAdds "onPreHandler" initialOData [("x.js", okPolicy), ("y.js", okPolicy)]).st

/-- Registry after loading just `p.js` at the default stage `onPreHandler`. -/
def stP : OData := (addPolicy "p.js" okPolicy "onPreHandler" initialOData).st

/-- Registry after loading `a.js` (declared `onRequest`) and `b.js`
(default stage `onPreHandler`). -/
def stAB : OData :=
  (runAdds "onPreHandler" initialOData [("a.js", onRequestPolicy), ("b.js", okPolicy)]).st

/-- Witness for the C4 theorem: the resolver maps both orderings of the
loaded names `x`, `y` to `onPreHandler`. -/
theorem determineAggregateApplyPoint_perm_invariant_witness :
    determineAggregateApplyPoint stXY ["y", "x"] = .ok "onPreHandler" :=
  determineAggregateApplyPoint_perm_invariant stXY ["x", "y"] ["y", "x"] "onPreHandler"
    (by unfold disjointBuckets; decide) (by decide) (by decide)

/-- C5: a registration whose extracted name already exists in the registry
fails with the duplicate-name error and leaves the registry state — name
set, buckets, raw-policy table and installed-handler set — exactly as it
was. -/
theorem addPolicy_duplicate_unchanged (filename name : String) (p : PolicyFn) (d : String)
    (st : OData) (hm : jsMatch filename = some name) (hdup : name ∈ st.names) :
    addPolicy filename p d st =
      ⟨st, none, some ("Trying to add a duplicate policy: " ++ name)⟩ := by
  rw [addPolicy, hm]
  simp [hdup]

/-- Witness for the C5 theorem: re-loading `p.js` into the registry that
already holds `p` reports the duplicate and changes nothing. -/
theorem addPolicy_duplicate_unchanged_witness :
    addPolicy "p.js" okPolicy "onPreHandler" stP =
      ⟨stP, none, some ("Trying to add a duplicate policy: " ++ "p")⟩ :=
  addPolicy_duplicate_unchanged "p.js" "p" okPolicy "onPreHandler" stP (by decide) (by decide)

/-- C10: registering a policy under a fresh name whose `applyPoint` property
is present but falsy passes validation (`hasValidApplyPoint` accepts falsy),
is then skipped by the `applyPoint === undefined || applyPoint` guard, and so
reports no error, installs no handler, leaves the state untouched, and leaves
the name unknown to later lookups. -/
theorem addPolicy_falsy_applyPoint_noop (filename name : String) (p : PolicyFn) (d : String)
    (st : OData) (hm : jsMatch filename = some name)
    (hpresent : p.applyPoint ≠ ApField.undef) (hfalsy : truthy p.applyPoint = false)
    (hnames : name ∉ st.names) (hfresh : st.rawPolicies.lookup name = none) :
    addPolicy filename p d st = ⟨st, none, none⟩ ∧
      (addPolicy filename p d st).st.rawPolicies.lookup name = none ∧
      name ∉ (addPolicy filename p d st).st.names := by
  have hvalid : hasValidApplyPoint p = true := by
    rw [hasValidApplyPoint, hfalsy]; rfl
  have hcond : ¬ (p.applyPoint = ApField.undef ∨ truthy p.applyPoint = true) := by
    rintro (h1 | h2)
    · exact hpresent h1
    · rw [hfalsy] at h2; exact Bool.false_ne_true h2
  have heq : addPolicy filename p d st = ⟨st, none, none⟩ := by
    rw [addPolicy, hm]
    simp [hnames, hvalid, hcond]
  refine ⟨heq, ?_, ?_⟩ <;> rw [heq]
  · exact hfresh
  · exact hnames

/-- Witness for the C10 theorem: loading `z.js` whose policy declares
`applyPoint: null` into the empty registry changes nothing and reports no
error, and `z` stays unknown. -/
theorem addPolicy_falsy_applyPoint_noop_witness :
    addPolicy "z.js" nullApplyPointPolicy "onPreHandler" initialOData =
      ⟨initialOData, none, none⟩ :=
  (addPolicy_falsy_applyPoint_noop "z.js" "z" nullApplyPointPolicy "onPreHandler"
    initialOData (by decide) (by decide) (by decide) (by decide) (by decide)).1

/-- `Items.serial` stops exactly at the first policy whose `checkPolicy`
callback passes an error: when every policy before index `i` continues and
the policy at `i` aborts, the invoked prefix is `take (i+1)` and the final
callback receives that policy's error. -/
theorem serialRun_take (ps : List PolicyFn) (i : Nat) (p : PolicyFn)
    (hp : ps[i]? = some p)
    (hbefore : ((ps.take i).all fun q => q.call.err.isNone && q.call.canContinue) = true)
    (hstop : checkPolicyNext p ≠ none) :
    serialRun ps = (ps.take (i + 1), checkPolicyNext p) := by
  induction ps generalizing i with
  | nil => simp at hp
  | cons q rest ih =>
    cases i with
    | zero =>
      have hqp : q = p := by simpa using hp
      subst hqp
      cases hc : checkPolicyNext q with
      | none => exact absurd hc hstop
      | some e => simp [serialRun, hc]
    | succ n =>
      have hball := hbefore
      rw [List.take_succ_cons, List.all_cons, Bool.and_eq_true] at hball
      obtain ⟨hq, hr⟩ := hball
      rw [Bool.and_eq_true, Option.isNone_iff_eq_none] at hq
      have hqnone : checkPolicyNext q = none := by
        rw [checkPolicyNext, hq.1]
        simp [hq.2]
      have hp' : rest[n]? = some p := by simpa using hp
      rw [serialRun, hqnone, ih n hp' hr]
      simp

/-- C6: when the serial executor reaches a rejecting policy (everything
before it continued) and no reply has been produced yet, it invokes exactly
the policies up to and including the rejecter — nothing listed after it —
and produces exactly one reply: the client-facing `forbidden` denial
carrying that policy's message. -/
theorem runPolicies_reject_short_circuit (ps : List PolicyFn) (i : Nat) (p : PolicyFn)
    (hp : ps[i]? = some p)
    (hbefore : ((ps.take i).all fun q => q.call.err.isNone && q.call.canContinue) = true)
    (herr : p.call.err = none) (hrej : p.call.canContinue = false) :
    runPolicies ps false =
      (ps.take (i + 1), [ReplyCall.err (.forbidden p.call.message)]) := by
  have hchk : checkPolicyNext p = some (.forbidden p.call.message) := by
    rw [checkPolicyNext, herr]
    simp [hrej]
  have hser := serialRun_take ps i p hp hbefore (by rw [hchk]; simp)
  rw [runPolicies, hser, hchk]
  simp

/-- Witness for the C6 theorem: in `[ok, reject, ok]` the third policy is
never invoked and the dispatch replies once with the rejecter's message. -/
theorem runPolicies_reject_short_circuit_witness :
    runPolicies [okPolicy, rejectPolicy, okPolicy] false =
      ([okPolicy, rejectPolicy], [ReplyCall.err (.forbidden (some "no entry"))]) :=
  runPolicies_reject_short_circuit [okPolicy, rejectPolicy, okPolicy] 1 rejectPolicy
    (by decide) (by decide) (by decide) (by decide)

/-- Every bucket of the freshly built bucket table is empty. -/
theorem bucketsGet_allNil (l : List String) (ap : String) :
    bucketsGet (l.map (fun a => (a, ([] : List (String × PolicyFn))))) ap = [] := by
  induction l with
  | nil => rfl
  | cons x xs ih =>
    rw [bucketsGet, List.map_cons]
    cases hax : (ap == x) with
    | true => simp [List.lookup, hax]
    | false =>
      rw [bucketsGet] at ih
      simp only [List.lookup, hax]
      exact ih

/-- C7: `reset` returns the pristine module state — empty name set, raw
table, handler set, an empty bucket for every stage, and a cleared memoize
cache — so processing any registration sequence after a reset behaves
exactly as on a fresh registry (re-registering previously held names hits no
duplicate error), and a resolver call through the cleared cache computes
from the current registrations alone. -/
theorem reset_clears_state_and_cache (s : MState) (st : OData) (names : List String)
    (d : String) (reqs : List (String × PolicyFn)) :
    reset s = ⟨initialOData, []⟩ ∧
      (reset s).oData.names = [] ∧
      (reset s).oData.rawPolicies = [] ∧
      (reset s).oData.setHandlers = [] ∧
      (∀ ap, bucketOf (reset s).oData ap = []) ∧
      (reset s).cache = [] ∧
      runAdds d (reset s).oData reqs = runAdds d initialOData reqs ∧
      (resolveMemoized st (reset s).cache names).fst =
        determineAggregateApplyPoint st names := by
    refine ⟨rfl, rfl, rfl, rfl, ?_, rfl, rfl, ?_⟩
    · intro ap
      exact bucketsGet_allNil aApplicablePoints ap
    · cases h : determineAggregateApplyPoint st names <;> simp [reset, resolveMemoized, h]

/-- JS property assignment never empties an object. -/
theorem setAssoc_ne_nil (b : List (String × PolicyFn)) (n : String) (p : PolicyFn) :
    setAssoc b n p ≠ [] := by
  cases b with
  | nil =>
    intro hcontra
    simp [setAssoc] at hcontra
  | cons kv rest =>
    obtain ⟨k, v⟩ := kv
    rw [setAssoc]
    split <;> simp

/-- Updating a bucket updates the entry stored under its key. -/
theorem bucketsGet_setBucket_self (bs : List (String × List (String × PolicyFn)))
    (ap n : String) (p : PolicyFn) :
    bucketsGet (setBucket bs ap n p) ap = setAssoc (bucketsGet bs ap) n p := by
  induction bs with
  | nil => simp [setBucket, bucketsGet, List.lookup, setAssoc]
  | cons kv rest ih =>
    obtain ⟨k, b⟩ := kv
    rw [setBucket]
    by_cases h : k = ap
    · subst h
      simp [bucketsGet, List.lookup]
    · rw [if_neg h]
      have hak : (ap == k) = false := beq_eq_false_iff_ne.mpr (fun hh => h hh.symm)
      simp only [bucketsGet, List.lookup, hak] at ih ⊢
      exact ih

/-- Updating one bucket leaves every other bucket unchanged. -/
theorem bucketsGet_setBucket_other (bs : List (String × List (String × PolicyFn)))
    (ap ap' n : String) (p : PolicyFn) (hne : ap' ≠ ap) :
    bucketsGet (setBucket bs ap n p) ap' = bucketsGet bs ap' := by
  induction bs with
  | nil => simp [setBucket, bucketsGet, List.lookup, beq_eq_false_iff_ne.mpr hne]
  | cons kv rest ih =>
    obtain ⟨k, b⟩ := kv
    rw [setBucket]
    by_cases h : k = ap
    · subst h
      have hak : (ap' == k) = false := beq_eq_false_iff_ne.mpr hne
      simp only [bucketsGet, List.lookup, hak]
    · rw [if_neg h]
      cases hk : (ap' == k) with
      | true => simp only [bucketsGet, List.lookup, hk]
      | false =>
        simp only [bucketsGet, List.lookup, hk] at ih ⊢
        exact ih

/-- The install-once invariant: a stage's handler is recorded in
`setHandlers` exactly when the stage's bucket is nonempty. -/
def handlersMatchBuckets (st : OData) : Prop :=
  ∀ ap : String, ap ∈ st.setHandlers ↔ bucketOf st ap ≠ []

/-- The state after the three stores of the registration branch:
`oData[applyPoint][name] = policy`, `oData.rawPolicies[name] = policy`,
`oData.names.push(name)`. -/
def storePolicy (st : OData) (applyPoint name : String) (p : PolicyFn) : OData :=
  { st with
    buckets := setBucket st.buckets applyPoint name p
    rawPolicies := setAssoc st.rawPolicies name p
    names := st.names ++ [name] }

theorem bucketOf_storePolicy_self (st : OData) (apR name : String) (p : PolicyFn) :
    bucketOf (storePolicy st apR name p) apR = setAssoc (bucketOf st apR) name p :=
  bucketsGet_setBucket_self _ _ _ _

theorem bucketOf_storePolicy_other (st : OData) (apR ap name : String) (p : PolicyFn)
    (h : ap ≠ apR) :
    bucketOf (storePolicy st apR name p) ap = bucketOf st ap :=
  bucketsGet_setBucket_other _ _ _ _ _ h

/-- Every `addPolicy` call either leaves the state alone and installs
nothing (missing match, duplicate, invalid or falsy `applyPoint`), or
registers the extracted fresh name into the bucket of its effective apply
point, installing the stage handler when it was not installed yet. -/
theorem addPolicy_shape (filename : String) (p : PolicyFn) (d : String) (st : OData) :
    ((addPolicy filename p d st).st = st ∧ (addPolicy filename p d st).installed = none) ∨
    (∃ name apR,
      jsMatch filename = some name ∧ name ∉ st.names ∧
      apR = (if truthy p.applyPoint then jsToString p.applyPoint else d) ∧
      addPolicy filename p d st =
        (if apR ∈ st.setHandlers then ⟨storePolicy st apR name p, none, none⟩
        else ⟨{ storePolicy st apR name p with
            setHandlers := (storePolicy st apR name p).setHandlers ++ [apR] },
          some apR, none⟩)) := by
  rcases hmc : jsMatch filename with _ | name
  · left
    rw [addPolicy, hmc]
    exact ⟨rfl, rfl⟩
  · by_cases h1 : name ∈ st.names
    · left
      rw [addPolicy, hmc]
      simp [h1]
    · by_cases h2 : hasValidApplyPoint p = true
      · by_cases h3 : p.applyPoint = ApField.undef ∨ truthy p.applyPoint = true
        · right
          refine ⟨name, _, rfl, h1, rfl, ?_⟩
          rw [addPolicy, hmc]
          simp [h1, h2, h3, storePolicy]
        · left
          rw [addPolicy, hmc]
          simp [h1, h2, h3]
      · left
        rw [addPolicy, hmc]
        simp [h1, h2]

/-- One `addPolicy` call preserves the install-once invariant; it installs a
stage's handler exactly when it registers into that stage's previously-empty
bucket, never removes a recorded handler, and an install appends exactly the
installed stage to `setHandlers`. -/
theorem addPolicy_install_step (filename : String) (p : PolicyFn) (d : String) (st : OData)
    (hinv : handlersMatchBuckets st) :
    handlersMatchBuckets (addPolicy filename p d st).st ∧
    (∀ ap, ((addPolicy filename p d st).installed = some ap ↔
      (bucketOf st ap = [] ∧
        bucketOf (addPolicy filename p d st).st ap ≠ bucketOf st ap))) ∧
    (∀ ap ∈ st.setHandlers, ap ∈ (addPolicy filename p d st).st.setHandlers) ∧
    (∀ ap, (addPolicy filename p d st).installed = some ap →
      ap ∉ st.setHandlers ∧
      (addPolicy filename p d st).st.setHandlers = st.setHandlers ++ [ap]) := by
  rcases addPolicy_shape filename p d st with ⟨hst, hins⟩ | ⟨name, apR, hmc, h1, hapR, heq⟩
  · rw [hst, hins]
    refine ⟨hinv, ?_, ?_, ?_⟩
    · intro ap
      constructor
      · intro hc; exact Option.noConfusion hc
      · rintro ⟨-, hne⟩; exact absurd rfl hne
    · intro ap hap; exact hap
    · intro ap hc; exact Option.noConfusion hc
  · rw [heq]
    by_cases hmem : apR ∈ st.setHandlers
    · rw [if_pos hmem]
      refine ⟨?_, ?_, ?_, ?_⟩
      · intro ap
        show ap ∈ st.setHandlers ↔ bucketOf (storePolicy st apR name p) ap ≠ []
        by_cases haeq : ap = apR
        · subst haeq
          rw [bucketOf_storePolicy_self]
          exact ⟨fun _ => setAssoc_ne_nil _ _ _, fun _ => hmem⟩
        · rw [bucketOf_storePolicy_other st apR ap name p haeq]
          exact hinv ap
      · intro ap
        constructor
        · intro hc; exact Option.noConfusion hc
        · rintro ⟨hempty, hne⟩
          by_cases haeq : ap = apR
          · subst haeq
            exact absurd hempty ((hinv ap).mp hmem)
          · exact absurd (bucketOf_storePolicy_other st apR ap name p haeq) hne
      · intro ap hap; exact hap
      · intro ap hc; exact Option.noConfusion hc
    · rw [if_neg hmem]
      have hempty : bucketOf st apR = [] := by
        by_cases hb : bucketOf st apR = []
        · exact hb
        · exact absurd ((hinv apR).mpr hb) hmem
      refine ⟨?_, ?_, ?_, ?_⟩
      · intro ap
        show ap ∈ st.setHandlers ++ [apR] ↔ bucketOf (storePolicy st apR name p) ap ≠ []
        by_cases haeq : ap = apR
        · subst haeq
          rw [bucketOf_storePolicy_self]
          exact ⟨fun _ => setAssoc_ne_nil _ _ _,
            fun _ => List.mem_append_right _ (List.mem_singleton_self _)⟩
        · rw [bucketOf_storePolicy_other st apR ap name p haeq]
          constructor
          · intro hap
            rcases List.mem_append.mp hap with hap | hap
            · exact (hinv ap).mp hap
            · exact absurd (List.mem_singleton.mp hap) haeq
          · intro hb
            exact List.mem_append_left _ ((hinv ap).mpr hb)
      · intro ap
        constructor
        · intro hc
          have hae : apR = ap := by injection hc
          subst hae
          refine ⟨hempty, ?_⟩
          show bucketOf (storePolicy st apR name p) apR ≠ bucketOf st apR
          rw [bucketOf_storePolicy_self, hempty]
          exact setAssoc_ne_nil _ _ _
        · rintro ⟨hem, hne⟩
          by_cases haeq : ap = apR
          · subst haeq; rfl
          · exact absurd (bucketOf_storePolicy_other st apR ap name p haeq) hne
      · intro ap hap
        exact List.mem_append_left _ hap
      · intro ap hc
        have hae : apR = ap := by injection hc
        subst hae
        exact ⟨hmem, rfl⟩

/-- Running any registration sequence from an invariant-respecting state
keeps the invariant, never installs the same stage handler twice, installs
only handlers that were not yet recorded, and never removes recorded
handlers. -/
theorem runAdds_installs_spec (d : String) :
    ∀ (reqs : List (String × PolicyFn)) (st : OData), handlersMatchBuckets st →
      handlersMatchBuckets (runAdds d st reqs).st ∧
      (runAdds d st reqs).installs.Nodup ∧
      (∀ ap ∈ (runAdds d st reqs).installs, ap ∉ st.setHandlers) ∧
      (∀ ap ∈ st.setHandlers, ap ∈ (runAdds d st reqs).st.setHandlers)
  | [], st, hinv => by
    refine ⟨hinv, List.nodup_nil, ?_, ?_⟩
    · intro ap hap
      simp [runAdds] at hap
    · intro ap hap
      exact hap
  | (fn, p) :: rest, st, hinv => by
    obtain ⟨hinv', hiff, hmono, hsome⟩ := addPolicy_install_step fn p d st hinv
    simp only [runAdds]
    cases herr : (addPolicy fn p d st).err with
    | some e =>
      have hnoop : (addPolicy fn p d st).st = st ∧
          (addPolicy fn p d st).installed = none := by
        rcases addPolicy_shape fn p d st with h | ⟨name, apR, -, -, -, heq⟩
        · exact h
        · rw [heq] at herr
          split at herr <;> simp at herr
      refine ⟨?_, ?_, ?_, ?_⟩
      · rw [hnoop.1]; exact hinv
      · rw [hnoop.2]; exact List.nodup_nil
      · intro ap hap
        rw [hnoop.2] at hap
        simp at hap
      · intro ap hap
        rw [hnoop.1]; exact hap
    | none =>
      obtain ⟨rinv, rnodup, rfresh, rmono⟩ :=
        runAdds_installs_spec d rest (addPolicy fn p d st).st hinv'
      cases hoi : (addPolicy fn p d st).installed with
      | none =>
        refine ⟨rinv, by simpa using rnodup, ?_, ?_⟩
        · intro ap hap
          simp only [hoi, Option.toList_none, List.nil_append] at hap
          intro hmem
          exact rfresh ap hap (hmono ap hmem)
        · intro ap hap
          exact rmono ap (hmono ap hap)
      | some ap0 =>
        obtain ⟨hnot0, happend⟩ := hsome ap0 hoi
        refine ⟨rinv, ?_, ?_, ?_⟩
        · simp only [Option.toList_some, List.singleton_append]
          refine List.nodup_cons.mpr ⟨?_, rnodup⟩
          intro hin
          apply rfresh ap0 hin
          rw [happend]
          exact List.mem_append_right _ (List.mem_singleton_self _)
        · intro ap hap
          simp only [Option.toList_some, List.singleton_append, List.mem_cons] at hap
          rcases hap with rfl | hap
          · exact hnot0
          · intro hmem
            exact rfresh ap hap (hmono ap hmem)
        · intro ap hap
          exact rmono ap (hmono ap hap)

/-- C8: over any sequence of registrations from the fresh registry, no stage
handler is ever installed twice; and at any point in a registry lifetime, a
registration installs the handler of a stage exactly when it registers into
that stage's previously-empty bucket. -/
theorem handler_installed_exactly_once (d : String) (reqs pre : List (String × PolicyFn))
    (fn : String) (p : PolicyFn) (ap : String) :
    (runAdds d initialOData reqs).installs.Nodup ∧
    ((addPolicy fn p d (runAdds d initialOData pre).st).installed = some ap ↔
      (bucketOf (runAdds d initialOData pre).st ap = [] ∧
        bucketOf (addPolicy fn p d (runAdds d initialOData pre).st).st ap ≠
          bucketOf (runAdds d initialOData pre).st ap)) := by
  have hinv0 : handlersMatchBuckets initialOData := by
    intro ap'
    constructor
    · intro h
      exact absurd h (List.not_mem_nil ap')
    · intro h
      exact absurd (bucketsGet_allNil aApplicablePoints ap') h
  constructor
  · exact (runAdds_installs_spec d reqs initialOData hinv0).2.1
  · have hpreinv := (runAdds_installs_spec d pre initialOData hinv0).1
    exact (addPolicy_install_step fn p d (runAdds d initialOData pre).st hpreinv).2.1 ap

/-- C1 (divergence witness): the inclusion test in the string branch of the
stage handler is inverted relative to its own "Look for missing policies"
comment.  With only `p` registered at `onPreHandler`, a route naming the
unregistered `nope` is skipped silently — the dispatch continues and runs no
policy — while naming the registered `p` short-circuits with
`notImplemented "Missing policy: p"`. -/
theorem dispatch_missingPolicy_inverted :
    dispatch "onPreHandler" stP "onPreHandler" (some [.str "nope"]) false =
      ⟨[], [.contin], none⟩ ∧
    dispatch "onPreHandler" stP "onPreHandler" (some [.str "p"]) false =
      ⟨[], [.err (.notImplemented "Missing policy: p")], none⟩ := by
  constructor <;> rfl

/-- C3 (divergence witness): because the same inverted inclusion test fires
for every registered name, a registered name bound to another stage (`a` at
`onRequest`, dispatched at `onPreHandler`) is not skipped silently, and a
registered name bound to this stage (`b` at `onPreHandler`) is not appended
and run — both short-circuit with the "Missing policy" reply. -/
theorem dispatch_registered_name_misfires :
    dispatch "onPreHandler" stAB "onPreHandler" (some [.str "a"]) false =
      ⟨[], [.err (.notImplemented "Missing policy: a")], none⟩ ∧
    dispatch "onPreHandler" stAB "onPreHandler" (some [.str "b"]) false =
      ⟨[], [.err (.notImplemented "Missing policy: b")], none⟩ := by
  constructor <;> rfl

/-- C2 (divergence witness): when a sub-policy failed, `defaultErrorHandler`
calls `next` twice — first with the earliest-listed failing outcome (the
`_.forEach` scan does give earlier-listed policies priority), then
unconditionally with `next(null, true)`; only when every sub-policy
continued does it call `next` exactly once, with success. -/
theorem defaultErrorHandler_double_callback :
    defaultErrorHandler ["A"] (fun _ => ⟨none, false, some "denied"⟩) =
      [⟨none, false, some "denied"⟩, ⟨none, true, none⟩] ∧
    defaultErrorHandler ["A", "B", "C"]
      (fun n => if n = "A" then ⟨none, true, none⟩
        else if n = "B" then ⟨none, false, some "b says no"⟩
        else ⟨none, false, some "c says no"⟩) =
      [⟨none, false, some "b says no"⟩, ⟨none, true, none⟩] ∧
    defaultErrorHandler ["A", "B"] (fun _ => ⟨none, true, none⟩) =
      [⟨none, true, none⟩] := by
  refine ⟨rfl, rfl, rfl⟩

/-- C9 counterexample: calling `parallel` with a single callable argument —
taken as the custom error handler, leaving zero policy names — trips neither
the arity assert (which counts arguments, not names) nor the uniqueness
assert, and returns an aggregate over the empty name list. -/
theorem parallel_single_handler_ok :
    parallel [ParArg.func 0] = .ok ([], true) := rfl

/-- C9 amended: a call with zero arguments fails the arity assertion; a call
whose extracted name list (final callable excluded) contains a duplicate
fails the uniqueness assertion; but a call whose sole argument is a callable
error handler passes both asserts and yields an aggregate with an empty name
list. -/
theorem parallel_assertions_amended (args : List ParArg) (i : Nat) :
    (parallel [] = .error "Requires at least one argument.") ∧
    (args ≠ [] → ¬ (parallelNames args).Nodup →
      parallel args = .error "Listed policies must be unique.") ∧
    (parallel [ParArg.func i] = .ok ([], true)) := by
  refine ⟨rfl, ?_, rfl⟩
  intro hne hdup
  have h0 : ¬ args.length = 0 := fun h => hne (List.length_eq_zero.mp h)
  have h1 : ¬ ((luniq (parallelNames args)).length = (parallelNames args).length) :=
    fun h => hdup ((luniq_length_iff _).mp h)
  simp only [parallel, if_neg h0, if_neg h1]

/-- Witness for the C9 amended theorem: a duplicated name fails the
uniqueness assertion even with a trailing callable handler. -/
theorem parallel_assertions_amended_witness :
    parallel [ParArg.str "a", ParArg.str "a", ParArg.func 7] =
      .error "Listed policies must be unique." :=
  (parallel_assertions_amended [ParArg.str "a", ParArg.str "a", ParArg.func 7] 0).2.1
    (by decide) (by decide)

/-- The keys of an object after `obj[n] = v` are the old keys plus `n`. -/
theorem mem_keys_setAssoc (b : List (String × PolicyFn)) (n x : String) (p : PolicyFn) :
    x ∈ (setAssoc b n p).map Prod.fst ↔ x ∈ b.map Prod.fst ∨ x = n := by
  induction b with
  | nil => simp [setAssoc]
  | cons kv rest ih =>
    obtain ⟨k, v⟩ := kv
    rw [setAssoc]
    by_cases h : k = n
    · subst h
      rw [if_pos rfl]
      simp only [List.map_cons, List.mem_cons]
      tauto
    · rw [if_neg h]
      simp only [List.map_cons, List.mem_cons, ih]
      tauto

/-- Every bucket key is a registered name. -/
def bucketsWithinNames (st : OData) : Prop :=
  ∀ ap : String, ∀ n ∈ bucketKeys st ap, n ∈ st.names

/-- One `addPolicy` call preserves "bucket keys are names" and the
disjointness of the stage buckets: it only ever inserts a fresh name into a
single bucket. -/
theorem addPolicy_preserves_disjoint (filename : String) (p : PolicyFn) (d : String)
    (st : OData) (hwn : bucketsWithinNames st) (hdisj : disjointBuckets st) :
    bucketsWithinNames (addPolicy filename p d st).st ∧
      disjointBuckets (addPolicy filename p d st).st := by
  rcases addPolicy_shape filename p d st with ⟨hst, -⟩ | ⟨name, apR, hmc, h1, hapR, heq⟩
  · rw [hst]; exact ⟨hwn, hdisj⟩
  · have hbk : ∀ ap, bucketOf (addPolicy filename p d st).st ap =
        bucketsGet (setBucket st.buckets apR name p) ap := by
      intro ap
      rw [heq]
      split <;> rfl
    have hnm : (addPolicy filename p d st).st.names = st.names ++ [name] := by
      rw [heq]; split <;> rfl
    refine ⟨?_, ?_⟩
    · intro ap n hn
      rw [bucketKeys, hbk ap] at hn
      rw [hnm]
      by_cases hape : ap = apR
      · subst hape
        rw [bucketsGet_setBucket_self] at hn
        rcases (mem_keys_setAssoc _ _ _ _).mp hn with hn | rfl
        · exact List.mem_append_left _ (hwn ap n hn)
        · exact List.mem_append_right _ (List.mem_singleton_self _)
      · rw [bucketsGet_setBucket_other _ _ _ _ _ hape] at hn
        exact List.mem_append_left _ (hwn ap n hn)
    · intro ap1 hm1 ap2 hm2 hne n hn1 hn2
      rw [bucketKeys, hbk ap1] at hn1
      rw [bucketKeys, hbk ap2] at hn2
      by_cases h1e : ap1 = apR
      · subst h1e
        rw [bucketsGet_setBucket_self] at hn1
        rw [bucketsGet_setBucket_other _ _ _ _ _ (Ne.symm hne)] at hn2
        rcases (mem_keys_setAssoc _ _ _ _).mp hn1 with hn1 | rfl
        · exact hdisj ap1 hm1 ap2 hm2 hne n hn1 hn2
        · exact h1 (hwn ap2 n hn2)
      · rw [bucketsGet_setBucket_other _ _ _ _ _ h1e] at hn1
        by_cases h2e : ap2 = apR
        · subst h2e
          rw [bucketsGet_setBucket_self] at hn2
          rcases (mem_keys_setAssoc _ _ _ _).mp hn2 with hn2 | rfl
          · exact hdisj ap1 hm1 ap2 hm2 hne n hn1 hn2
          · exact h1 (hwn ap1 n hn1)
        · rw [bucketsGet_setBucket_other _ _ _ _ _ h2e] at hn2
          exact hdisj ap1 hm1 ap2 hm2 hne n hn1 hn2

/-- Any registry state reachable by loading policies into the fresh registry
has disjoint stage buckets — the invariant assumed by the order-invariance
theorem for the resolver. -/
theorem disjointBuckets_reachable (d : String) :
    ∀ (reqs : List (String × PolicyFn)) (st : OData),
      bucketsWithinNames st → disjointBuckets st →
      bucketsWithinNames (runAdds d st reqs).st ∧ disjointBuckets (runAdds d st reqs).st
  | [], _, hwn, hdisj => ⟨hwn, hdisj⟩
  | (fn, p) :: rest, st, hwn, hdisj => by
    obtain ⟨hwn', hdisj'⟩ := addPolicy_preserves_disjoint fn p d st hwn hdisj
    simp only [runAdds]
    cases herr : (addPolicy fn p d st).err with
    | some e => exact ⟨hwn', hdisj'⟩
    | none => exact disjointBuckets_reachable d rest (addPolicy fn p d st).st hwn' hdisj'

/-- The fresh registry trivially satisfies both bucket invariants. -/
theorem disjointBuckets_initial :
    bucketsWithinNames initialOData ∧ disjointBuckets initialOData := by
  constructor
  · intro ap n hn
    rw [bucketKeys, bucketOf] at hn
    rw [show initialOData.buckets = aApplicablePoints.map (fun a => (a, [])) from rfl,
      bucketsGet_allNil] at hn
    simp at hn
  · intro ap1 hm1 ap2 hm2 hne n hn1
    rw [bucketKeys, bucketOf] at hn1
    rw [show initialOData.buckets = aApplicablePoints.map (fun a => (a, [])) from rfl,
      bucketsGet_allNil] at hn1
    simp at hn1
